import Mathlib

/-!
Shallow embedding of `rocker_stress` (Zhou et al. 2010 rocking-dish model).

The Python source works on `numpy` float arrays; we embed arrays as `List α`
over an arbitrary linear ordered field `α` (with a floor structure where the
code truncates to `int`), and pass the transcendental functions the code uses
(`np.sin`, `np.tan`, `np.arctan`, `np.pi`) as explicit parameters, so every
definition stays computable and claims can be evaluated over `ℚ`.
-/

variable {α : Type} [LinearOrderedField α] [FloorRing α]

/-- Bundle of the transcendental operations the source uses
(`np.sin`, `np.tan`, `np.arctan`, `np.pi`), kept abstract in the embedding. -/
structure TrigOps (α : Type) where
  sin : α → α
  tan : α → α
  arctan : α → α
  pi : α

/-- Embedding of `np.linspace(a, b, n)`: `n` evenly spaced samples from `a`
to `b` inclusive.  For `n = 1` numpy returns `[a]`; the formula below agrees
because division by zero is zero in Lean. -/
def linspace (a b : α) (n : ℕ) : List α :=
  (List.range n).map (fun i : ℕ => a + (b - a) * (i : α) / ((n - 1 : ℕ) : α))

/-- Embedding of Python `int(x)` applied to a real quantity: truncation
toward zero. -/
def int_trunc (x : α) : ℤ :=
  if 0 ≤ x then ⌊x⌋ else ⌈x⌉

/-- One entry of `np.gradient(vs, ts)` (second-order interior scheme on
possibly non-uniform spacing, first-order one-sided differences at the two
edges, numpy default `edge_order=1`), with `n` the length of `vs`. -/
def np_gradientAt (vs ts : List α) (n i : ℕ) : α :=
  if i = 0 then
    (vs.getD 1 0 - vs.getD 0 0) / (ts.getD 1 0 - ts.getD 0 0)
  else if i = n - 1 then
    (vs.getD (n - 1) 0 - vs.getD (n - 2) 0) / (ts.getD (n - 1) 0 - ts.getD (n - 2) 0)
  else
    (-((ts.getD (i + 1) 0 - ts.getD i 0) ^ 2) * vs.getD (i - 1) 0
        + ((ts.getD (i + 1) 0 - ts.getD i 0) ^ 2 - (ts.getD i 0 - ts.getD (i - 1) 0) ^ 2)
          * vs.getD i 0
        + (ts.getD i 0 - ts.getD (i - 1) 0) ^ 2 * vs.getD (i + 1) 0)
      / ((ts.getD i 0 - ts.getD (i - 1) 0) * (ts.getD (i + 1) 0 - ts.getD i 0)
          * ((ts.getD i 0 - ts.getD (i - 1) 0) + (ts.getD (i + 1) 0 - ts.getD i 0)))

/-- Embedding of `np.gradient(vs, ts)`. -/
def np_gradient (vs ts : List α) : List α :=
  List.ofFn (fun i : Fin vs.length => np_gradientAt vs ts vs.length i.val)

/-- Embedding of the `TimeSeries` frozen dataclass. -/
structure TimeSeries (α : Type) where
  times : List α
  values : List α
deriving DecidableEq

/-- `TimeSeries.with_values`: same `times`, replaced `values`. -/
def TimeSeries.with_values (s : TimeSeries α) (values : List α) : TimeSeries α :=
  { times := s.times, values := values }

/-- `TimeSeries.neg`: elementwise negation of the values. -/
def TimeSeries.neg (s : TimeSeries α) : TimeSeries α :=
  s.with_values (s.values.map (fun v => -v))

/-- `TimeSeries.derivate`: `np.gradient(values, times)` over the same times. -/
def TimeSeries.derivate (s : TimeSeries α) : TimeSeries α :=
  s.with_values (np_gradient s.values s.times)

/-- Embedding of the `SineRocking` dataclass. -/
structure SineRocking (α : Type) where
  angle_max : α
  period : α

/-- `SineRocking.angle(ntimes)`: `ntimes` samples over `[0, period]` with
values `angle_max * sin(2 pi t / period)`. -/
def SineRocking.angle (p : SineRocking α) (t : TrigOps α) (ntimes : ℕ) : TimeSeries α :=
  { times := linspace 0 p.period ntimes,
    values := (linspace 0 p.period ntimes).map
      (fun x => p.angle_max * t.sin (2 * t.pi * x / p.period)) }

/-- Embedding of the `ConstantRocking` dataclass. -/
structure ConstantRocking (α : Type) where
  forward_angular_vel : α
  backward_angular_vel : α
  angle_max : α

/-- The forward-phase sample count `n_fwd` of `ConstantRocking.angle`:
`int(backward / (backward + forward) * ntimes)`. -/
def ConstantRocking.n_fwd (p : ConstantRocking α) (ntimes : ℕ) : ℤ :=
  int_trunc (p.backward_angular_vel
    / (p.backward_angular_vel + p.forward_angular_vel) * (ntimes : α))

/-- `ConstantRocking.angle(ntimes)`: ramp up to `angle_max` over `n_fwd + 1`
samples, ramp back down over the last `n_back` slots (overwriting the shared
junction sample).  The Python code asserts `n_fwd > 0 and n_back > 0` before
building any array; failure of that assertion is `none` here. -/
def ConstantRocking.angle (p : ConstantRocking α) (ntimes : ℕ) :
    Option (TimeSeries α) :=
  let n_fwd : ℤ := p.n_fwd ntimes
  let n_back : ℤ := (ntimes : ℤ) - n_fwd
  if 0 < n_fwd ∧ 0 < n_back then
    let nf : ℕ := n_fwd.toNat
    let nb : ℕ := n_back.toNat
    let dt_fwd : α := p.angle_max / p.forward_angular_vel
    let dt_back : α := p.angle_max / p.backward_angular_vel
    let t_fwd := linspace 0 dt_fwd (nf + 1)
    let v_fwd := linspace 0 p.angle_max (nf + 1)
    let t_back := linspace dt_fwd (dt_fwd + dt_back) nb
    let v_back := linspace p.angle_max 0 nb
    some
      { times := List.ofFn (fun i : Fin ntimes =>
          if i.val < ntimes - nb then t_fwd.getD i.val 0
          else t_back.getD (i.val - (ntimes - nb)) 0),
        values := List.ofFn (fun i : Fin ntimes =>
          if i.val < ntimes - nb then v_fwd.getD i.val 0
          else v_back.getD (i.val - (ntimes - nb)) 0) }
  else none

/-- The two dish variants, `RectDish(length, width, height)` and
`CylDish(radius, vol)`. -/
inductive Dish (α : Type) where
  | rect (length width height : α)
  | cyl (radius vol : α)
deriving DecidableEq

/-- `Dish.fluid_height`: `height` for a rectangular dish,
`vol / (pi radius^2)` for a cylindrical one. -/
def Dish.fluid_height (d : Dish α) (t : TrigOps α) : α :=
  match d with
  | .rect _ _ height => height
  | .cyl radius vol => vol / (t.pi * radius ^ 2)

/-- `Dish.cross_length`: `width` for a rectangular dish, `radius` for a
cylindrical one. -/
def Dish.cross_length (d : Dish α) : α :=
  match d with
  | .rect _ width _ => width
  | .cyl radius _ => radius

/-- `Dish.critical_angle`: `arctan(2 height / length)` for a rectangular
dish, `arctan(fluid_height / radius)` for a cylindrical one. -/
def Dish.critical_angle (d : Dish α) (t : TrigOps α) : α :=
  match d with
  | .rect length _ height => t.arctan (2 * height / length)
  | .cyl radius _ => t.arctan (d.fluid_height t / radius)

/-- `Dish.fluid_volume`: retained volume on the right of the dish center,
elementwise in the tilt angle. -/
def Dish.fluid_volume (d : Dish α) (t : TrigOps α) (angle : TimeSeries α) :
    TimeSeries α :=
  match d with
  | .rect length width height =>
      angle.with_values (angle.values.map
        (fun a => width * length / 2 * (height - length / 4 * t.tan a)))
  | .cyl radius _ =>
      angle.with_values (angle.values.map
        (fun a => radius ^ 2 *
          (t.pi * d.fluid_height t / 2 - 2 * radius / 3 * t.tan a)))

/-- `Dish.fluid_flux`: raise (here: `none`) when any `|angle| > critical_angle`,
otherwise `fluid_volume(angle).derivate().neg()`. -/
def Dish.fluid_flux (d : Dish α) (t : TrigOps α) (angle : TimeSeries α) :
    Option (TimeSeries α) :=
  if angle.values.any (fun v => decide (d.critical_angle t < |v|)) then none
  else some ((d.fluid_volume t angle).derivate.neg)

/-- Embedding of the `LubricationLister92` dataclass. -/
structure LubricationLister92 (α : Type) where
  dynamic_viscosity : α
  height : α
  width : α

/-- `LubricationLister92.shear_stress_bottom(flux)`: wall shear stress
`dynamic_viscosity * (3 / (width height^2) * q)` elementwise over the flux. -/
def LubricationLister92.shear_stress_bottom (m : LubricationLister92 α)
    (flux : TimeSeries α) : TimeSeries α :=
  flux.with_values (flux.values.map
    (fun q => m.dynamic_viscosity * (3 / (m.width * m.height ^ 2) * q)))

/-- A concrete `TrigOps` instance over `ℚ` used to evaluate claims on
concrete inputs (`sin := 0`, `tan := 0`, `arctan := id`, `pi := 3`). -/
def trigQ : TrigOps ℚ :=
  { sin := fun _ => 0, tan := fun _ => 0, arctan := id, pi := 3 }

lemma getD_ofFn {n : ℕ} (f : Fin n → α) (i : ℕ) (h : i < n) :
    (List.ofFn f).getD i 0 = f ⟨i, h⟩ := by
  rw [List.getD_eq_getElem _ _ (by simpa using h)]
  simp

lemma length_linspace (a b : α) (n : ℕ) : (linspace a b n).length = n := by
  rw [linspace, List.length_map, List.length_range]

lemma getD_linspace (a b : α) {n i : ℕ} (h : i < n) :
    (linspace a b n).getD i 0 = a + (b - a) * (i : α) / ((n - 1 : ℕ) : α) := by
  rw [List.getD_eq_getElem _ _ (by rw [length_linspace]; exact h)]
  simp only [linspace, List.getElem_map, List.getElem_range]

lemma linspace_first (a b : α) {n : ℕ} (h : 0 < n) :
    (linspace a b n).getD 0 0 = a := by
  rw [getD_linspace a b h]
  simp

lemma linspace_last (a b : α) {n : ℕ} (h : 2 ≤ n) :
    (linspace a b n).getD (n - 1) 0 = b := by
  rw [getD_linspace a b (by omega)]
  have hne : ((n - 1 : ℕ) : α) ≠ 0 := by
    have : 0 < n - 1 := by omega
    exact_mod_cast Nat.pos_iff_ne_zero.mp this
  rw [mul_div_assoc, div_self hne]
  ring

/-- C10: `TimeSeries.with_values` performs no validation: for every values
list, even one whose length differs from that of `times`, it returns the
original times paired with the given values, so a mismatched call silently
breaks the length invariant instead of failing. -/
theorem with_values_no_validation (s : TimeSeries α) (vs : List α) :
    s.with_values vs = { times := s.times, values := vs } ∧
    (vs.length ≠ s.times.length →
      (s.with_values vs).times.length ≠ (s.with_values vs).values.length) := by
  refine ⟨rfl, fun h h2 => h ?_⟩
  simpa [TimeSeries.with_values] using h2.symm

/-- Witness for C10 at a concrete mismatched input: two times, one value. -/
theorem with_values_no_validation_witness :
    TimeSeries.with_values (α := ℚ) ⟨[0, 1], [0, 0]⟩ [5]
        = { times := [0, 1], values := [5] } ∧
    (TimeSeries.with_values (α := ℚ) ⟨[0, 1], [0, 0]⟩ [5]).times.length
        ≠ (TimeSeries.with_values (α := ℚ) ⟨[0, 1], [0, 0]⟩ [5]).values.length :=
  ⟨(with_values_no_validation ⟨[0, 1], [0, 0]⟩ [5]).1,
   (with_values_no_validation ⟨[0, 1], [0, 0]⟩ [5]).2 (by decide)⟩

/-- C5: `shear_stress_bottom` preserves the times and maps every value `q`
to `dynamic_viscosity * 3 / (width * height ^ 2) * q`. -/
theorem shear_stress_bottom_spec (m : LubricationLister92 α)
    (flux : TimeSeries α) (hh : m.height ≠ 0) (hw : m.width ≠ 0) :
    (m.shear_stress_bottom flux).times = flux.times ∧
    (m.shear_stress_bottom flux).values.length = flux.values.length ∧
    ∀ i < flux.values.length,
      (m.shear_stress_bottom flux).values.getD i 0
        = m.dynamic_viscosity * 3 / (m.width * m.height ^ 2)
            * flux.values.getD i 0 := by
  refine ⟨rfl, by simp [LubricationLister92.shear_stress_bottom, TimeSeries.with_values], ?_⟩
  intro i hi
  rw [List.getD_eq_getElem _ _ (by simpa [LubricationLister92.shear_stress_bottom, TimeSeries.with_values] using hi),
    List.getD_eq_getElem _ _ hi]
  simp only [LubricationLister92.shear_stress_bottom, TimeSeries.with_values,
    List.getElem_map]
  ring

/-- Witness for C5 at a concrete model and flux series. -/
theorem shear_stress_bottom_spec_witness :
    ((2 : ℚ) ≠ 0) ∧ ((5 : ℚ) ≠ 0) ∧
    ((LubricationLister92.shear_stress_bottom (α := ℚ) ⟨7, 2, 5⟩
        ⟨[0, 1], [1, 4]⟩).times = [0, 1] ∧
      (LubricationLister92.shear_stress_bottom (α := ℚ) ⟨7, 2, 5⟩
        ⟨[0, 1], [1, 4]⟩).values.length = ([1, 4] : List ℚ).length ∧
      ∀ i < ([1, 4] : List ℚ).length,
        (LubricationLister92.shear_stress_bottom (α := ℚ) ⟨7, 2, 5⟩
          ⟨[0, 1], [1, 4]⟩).values.getD i 0
            = 7 * 3 / (5 * 2 ^ 2) * (([1, 4] : List ℚ).getD i 0)) :=
  ⟨by decide, by decide,
   shear_stress_bottom_spec ⟨7, 2, 5⟩ ⟨[0, 1], [1, 4]⟩ (by decide) (by decide)⟩

/-- C9: every series transform (`with_values`, `neg`, `derivate`,
`fluid_volume`, `fluid_flux` when it succeeds, `shear_stress_bottom`)
returns a new series whose `times` component equals the input's `times`;
inputs are immutable values in this embedding, so only `values` may differ. -/
theorem series_transforms_preserve_times (s : TimeSeries α) (vs : List α)
    (t : TrigOps α) (d : Dish α) (a : TimeSeries α)
    (m : LubricationLister92 α) (f r : TimeSeries α) :
    (s.with_values vs).times = s.times ∧
    s.neg.times = s.times ∧
    s.derivate.times = s.times ∧
    (d.fluid_volume t a).times = a.times ∧
    (d.fluid_flux t a = some r → r.times = a.times) ∧
    (m.shear_stress_bottom f).times = f.times := by
  refine ⟨rfl, rfl, rfl, ?_, ?_, rfl⟩
  · cases d <;> rfl
  · intro h
    rw [Dish.fluid_flux] at h
    split at h
    · exact absurd h (by simp)
    · obtain rfl : ((d.fluid_volume t a).derivate.neg) = r := by
        simpa using h
      cases d <;> rfl

/-- Witness for C9 at concrete inputs, with the `fluid_flux` implication
discharged at a successful call. -/
theorem series_transforms_preserve_times_witness :
    (TimeSeries.with_values (α := ℚ) ⟨[0, 1], [2, 3]⟩ [4, 5]).times = [0, 1] ∧
    (TimeSeries.neg (α := ℚ) ⟨[0, 1], [2, 3]⟩).times = [0, 1] ∧
    (TimeSeries.derivate (α := ℚ) ⟨[0, 1], [2, 3]⟩).times = [0, 1] ∧
    (Dish.fluid_volume (α := ℚ) (.rect 2 1 1) trigQ ⟨[0, 1], [0, 0]⟩).times = [0, 1] ∧
    (Dish.fluid_flux (α := ℚ) (.rect 2 1 1) trigQ ⟨[0, 1], [0, 0]⟩
        = some ((Dish.fluid_volume (α := ℚ) (.rect 2 1 1) trigQ
          ⟨[0, 1], [0, 0]⟩).derivate.neg) →
      ((Dish.fluid_volume (α := ℚ) (.rect 2 1 1) trigQ
        ⟨[0, 1], [0, 0]⟩).derivate.neg).times = [0, 1]) ∧
    (LubricationLister92.shear_stress_bottom (α := ℚ) ⟨1, 1, 1⟩
      ⟨[0, 1], [2, 3]⟩).times = [0, 1] :=
  series_transforms_preserve_times ⟨[0, 1], [2, 3]⟩ [4, 5] trigQ
    (.rect 2 1 1) ⟨[0, 1], [0, 0]⟩ ⟨1, 1, 1⟩ ⟨[0, 1], [2, 3]⟩
    ((Dish.fluid_volume (α := ℚ) (.rect 2 1 1) trigQ ⟨[0, 1], [0, 0]⟩).derivate.neg)

/-- C1: `fluid_flux` fails with the angle-exceeded error exactly when some
sample of the angle series is strictly beyond the critical angle in
magnitude; the test involves only the angle values, never the
volume/derivative computation. -/
theorem fluid_flux_none_iff_angle_exceeded (d : Dish α) (t : TrigOps α)
    (a : TimeSeries α) :
    d.fluid_flux t a = none ↔
      ∃ i < a.values.length, d.critical_angle t < |a.values.getD i 0| := by
  rw [Dish.fluid_flux]
  constructor
  · intro h
    split at h
    · next hc =>
        rw [List.any_eq_true] at hc
        obtain ⟨v, hv, hlt⟩ := hc
        rw [List.mem_iff_getElem] at hv
        obtain ⟨i, hi, rfl⟩ := hv
        exact ⟨i, hi, by rw [List.getD_eq_getElem _ _ hi]; exact of_decide_eq_true hlt⟩
    · exact absurd h (by simp)
  · rintro ⟨i, hi, hlt⟩
    rw [if_pos]
    rw [List.any_eq_true]
    refine ⟨a.values.getD i 0, ?_, by simpa using hlt⟩
    rw [List.getD_eq_getElem _ _ hi]
    exact List.getElem_mem hi

lemma fluid_flux_of_le (d : Dish α) (t : TrigOps α)
    (a : TimeSeries α) (h : ∀ v ∈ a.values, |v| ≤ d.critical_angle t) :
    d.fluid_flux t a = some ((d.fluid_volume t a).derivate.neg) := by
  rw [Dish.fluid_flux, if_neg]
  rw [List.any_eq_true]
  rintro ⟨v, hv, hlt⟩
  exact absurd (h v hv) (not_le.mpr (of_decide_eq_true hlt))

/-- C4: when every angle sample is at most the critical angle in magnitude,
`fluid_flux` returns exactly `fluid_volume(angle).derivate().neg()`. -/
theorem fluid_flux_eq_neg_derivate_volume (d : Dish α) (t : TrigOps α)
    (a : TimeSeries α) (h : ∀ v ∈ a.values, |v| ≤ d.critical_angle t) :
    d.fluid_flux t a = some ((d.fluid_volume t a).derivate.neg) :=
  fluid_flux_of_le d t a h

/-- Witness for C4 at a concrete dish and admissible angle series. -/
theorem fluid_flux_eq_neg_derivate_volume_witness :
    (∀ v ∈ ([0, 0] : List ℚ), |v| ≤ Dish.critical_angle (α := ℚ) (.rect 2 1 1) trigQ) ∧
    Dish.fluid_flux (α := ℚ) (.rect 2 1 1) trigQ ⟨[0, 1], [0, 0]⟩
      = some ((Dish.fluid_volume (α := ℚ) (.rect 2 1 1) trigQ
          ⟨[0, 1], [0, 0]⟩).derivate.neg) := by
  have h : ∀ v ∈ ([0, 0] : List ℚ),
      |v| ≤ Dish.critical_angle (α := ℚ) (.rect 2 1 1) trigQ := by
    intro v hv
    have hv0 : v = 0 := by simpa using hv
    subst hv0
    norm_num [Dish.critical_angle, trigQ]
  exact ⟨h, fluid_flux_eq_neg_derivate_volume (.rect 2 1 1) trigQ ⟨[0, 1], [0, 0]⟩ h⟩

lemma length_np_gradient (vs ts : List α) :
    (np_gradient vs ts).length = vs.length := by
  rw [np_gradient, List.length_ofFn]

lemma np_gradient_const (vs ts : List α) (c : α) (hn : 2 ≤ vs.length)
    (hc : ∀ v ∈ vs, v = c) : ∀ g ∈ np_gradient vs ts, g = 0 := by
  have hget : ∀ j, j < vs.length → vs.getD j 0 = c := by
    intro j hj
    rw [List.getD_eq_getElem _ _ hj]
    exact hc _ (List.getElem_mem hj)
  intro g hg
  rw [np_gradient, List.mem_ofFn] at hg
  obtain ⟨i, rfl⟩ := hg
  have hi : i.val < vs.length := i.isLt
  show np_gradientAt vs ts vs.length i.val = 0
  rw [np_gradientAt.eq_def]
  by_cases h0 : i.val = 0
  · rw [if_pos h0, hget 1 (by omega), hget 0 (by omega)]
    simp
  · rw [if_neg h0]
    by_cases hl : i.val = vs.length - 1
    · rw [if_pos hl, hget (vs.length - 1) (by omega), hget (vs.length - 2) (by omega)]
      simp
    · rw [if_neg hl, hget (i.val - 1) (by omega), hget i.val (by omega),
        hget (i.val + 1) (by omega)]
      have hz : -((ts.getD (i.val + 1) 0 - ts.getD i.val 0) ^ 2) * c
          + ((ts.getD (i.val + 1) 0 - ts.getD i.val 0) ^ 2
              - (ts.getD i.val 0 - ts.getD (i.val - 1) 0) ^ 2) * c
          + (ts.getD i.val 0 - ts.getD (i.val - 1) 0) ^ 2 * c = 0 := by ring
      rw [hz, zero_div]

/-- C7: for either dish variant with a positive critical angle, an all-zero
angle series of length at least two with strictly increasing times is
accepted by `fluid_flux` and yields an all-zero flux series. -/
theorem fluid_flux_zero_angle (d : Dish α) (t : TrigOps α) (a : TimeSeries α)
    (hcrit : 0 < d.critical_angle t) (hlen : 2 ≤ a.values.length)
    (hmono : a.times.Pairwise (· < ·)) (hzero : ∀ v ∈ a.values, v = 0) :
    ∃ r, d.fluid_flux t a = some r ∧ r.values.length = a.values.length ∧
      ∀ v ∈ r.values, v = 0 := by
  have hflux := fluid_flux_of_le d t a (by
    intro v hv
    rw [hzero v hv]
    simpa using le_of_lt hcrit)
  refine ⟨(d.fluid_volume t a).derivate.neg, hflux, ?_, ?_⟩
  · have h1 : (d.fluid_volume t a).values.length = a.values.length := by
      cases d <;>
        simp [Dish.fluid_volume, TimeSeries.with_values]
    simp [TimeSeries.neg, TimeSeries.derivate, TimeSeries.with_values,
      length_np_gradient, h1]
  · have hconst : ∃ c, ∀ x ∈ (d.fluid_volume t a).values, x = c := by
      cases d with
      | rect length width height =>
          refine ⟨width * length / 2 * (height - length / 4 * t.tan 0), ?_⟩
          intro x hx
          simp only [Dish.fluid_volume, TimeSeries.with_values,
            List.mem_map] at hx
          obtain ⟨v, hv, rfl⟩ := hx
          rw [hzero v hv]
      | cyl radius vol =>
          refine ⟨radius ^ 2 * (t.pi * (Dish.cyl radius vol).fluid_height t / 2
            - 2 * radius / 3 * t.tan 0), ?_⟩
          intro x hx
          simp only [Dish.fluid_volume, TimeSeries.with_values,
            List.mem_map] at hx
          obtain ⟨v, hv, rfl⟩ := hx
          rw [hzero v hv]
    obtain ⟨c, hc⟩ := hconst
    have hvlen : 2 ≤ (d.fluid_volume t a).values.length := by
      cases d <;>
        simpa [Dish.fluid_volume, TimeSeries.with_values] using hlen
    have htimes : (d.fluid_volume t a).times = a.times := by
      cases d <;> rfl
    intro v hv
    simp only [TimeSeries.neg, TimeSeries.derivate, TimeSeries.with_values,
      List.mem_map] at hv
    obtain ⟨g, hg, rfl⟩ := hv
    rw [np_gradient_const _ _ c hvlen hc g (htimes ▸ hg)]
    exact neg_zero

/-- Witness for C7: a rectangular dish with positive critical angle and a
three-sample all-zero angle series. -/
theorem fluid_flux_zero_angle_witness :
    (0 < Dish.critical_angle (α := ℚ) (.rect 2 1 1) trigQ) ∧
    ∃ r, Dish.fluid_flux (α := ℚ) (.rect 2 1 1) trigQ ⟨[0, 1, 2], [0, 0, 0]⟩
        = some r ∧
      r.values.length = 3 ∧ ∀ v ∈ r.values, v = 0 := by
  have hcrit : (0 : ℚ) < Dish.critical_angle (α := ℚ) (.rect 2 1 1) trigQ := by
    norm_num [Dish.critical_angle, trigQ]
  exact ⟨hcrit, fluid_flux_zero_angle (.rect 2 1 1) trigQ ⟨[0, 1, 2], [0, 0, 0]⟩
    hcrit (by decide) (by decide) (by decide)⟩

lemma getD_map_of_lt (f : α → α) (l : List α) {i : ℕ} (h : i < l.length) :
    (l.map f).getD i 0 = f (l.getD i 0) := by
  rw [List.getD_eq_getElem _ _ (by simpa using h), List.getD_eq_getElem _ _ h,
    List.getElem_map]

/-- C8: on a series whose values are an affine function `k * t + c` of the
times, with strictly increasing times, `derivate` returns exactly `k` at
every interior index (spacing-weighted central differences are exact on
affine data). -/
theorem derivate_linear_ramp (s : TimeSeries α) (k c : α)
    (hlen : 2 ≤ s.values.length) (hlen2 : s.times.length = s.values.length)
    (hmono : ∀ j < s.times.length, ∀ i < j, s.times.getD i 0 < s.times.getD j 0)
    (hlin : ∀ i < s.values.length, s.values.getD i 0 = k * s.times.getD i 0 + c)
    (i : ℕ) (h0 : 0 < i) (hi : i + 1 < s.values.length) :
    s.derivate.values.getD i 0 = k := by
  have hvd : s.derivate.values = np_gradient s.values s.times := rfl
  rw [hvd, np_gradient, getD_ofFn _ i (by omega)]
  rw [np_gradientAt.eq_def, if_neg (show ¬i = 0 by omega),
    if_neg (show ¬i = s.values.length - 1 by omega)]
  rw [hlin (i - 1) (by omega), hlin i (by omega), hlin (i + 1) (by omega)]
  have h12 : s.times.getD (i - 1) 0 < s.times.getD i 0 :=
    hmono i (by omega) (i - 1) (by omega)
  have h23 : s.times.getD i 0 < s.times.getD (i + 1) 0 :=
    hmono (i + 1) (by omega) i (by omega)
  have hn1 : s.times.getD i 0 - s.times.getD (i - 1) 0 ≠ 0 :=
    sub_ne_zero.mpr (ne_of_gt h12)
  have hn2 : s.times.getD (i + 1) 0 - s.times.getD i 0 ≠ 0 :=
    sub_ne_zero.mpr (ne_of_gt h23)
  have hn3 : (s.times.getD i 0 - s.times.getD (i - 1) 0)
      + (s.times.getD (i + 1) 0 - s.times.getD i 0) ≠ 0 :=
    (add_pos (sub_pos.mpr h12) (sub_pos.mpr h23)).ne'
  rw [div_eq_iff (mul_ne_zero (mul_ne_zero hn1 hn2) hn3)]
  ring

/-- Witness for C8: the ramp `values = 2 * times + 1` on non-uniform times
`[0, 1, 3]` has derivative `2` at the interior index `1`. -/
theorem derivate_linear_ramp_witness :
    (2 ≤ ([1, 3, 7] : List ℚ).length) ∧
    (∀ j < ([0, 1, 3] : List ℚ).length, ∀ i < j,
      (([0, 1, 3] : List ℚ).getD i 0) < (([0, 1, 3] : List ℚ).getD j 0)) ∧
    (∀ i < ([1, 3, 7] : List ℚ).length,
      (([1, 3, 7] : List ℚ).getD i 0) = 2 * (([0, 1, 3] : List ℚ).getD i 0) + 1) ∧
    (TimeSeries.derivate (α := ℚ) ⟨[0, 1, 3], [1, 3, 7]⟩).values.getD 1 0 = 2 := by
  have hlin : ∀ i < ([1, 3, 7] : List ℚ).length,
      (([1, 3, 7] : List ℚ).getD i 0) = 2 * (([0, 1, 3] : List ℚ).getD i 0) + 1 := by
    intro i hil
    have h3 : i < 3 := by simpa using hil
    interval_cases i <;> norm_num
  exact ⟨by decide, by decide, hlin,
    derivate_linear_ramp ⟨[0, 1, 3], [1, 3, 7]⟩ 2 1 (by decide) (by decide)
      (by decide) hlin 1 (by decide) (by decide)⟩

/-- C6: `SineRocking.angle(ntimes)` returns `ntimes` evenly spaced samples
over `[0, period]` with values `angle_max * sin(2 pi t / period)`; given the
defining properties of the sine function, every value lies within
`[-angle_max, angle_max]` and the values at `t = 0` and `t = period` are
both zero. -/
theorem sineRocking_angle_spec (p : SineRocking α) (t : TrigOps α) (n : ℕ)
    (hmax : 0 ≤ p.angle_max) (hper : 0 < p.period) (hn : 2 ≤ n)
    (hsin_bound : ∀ x, |t.sin x| ≤ 1) (hsin_zero : t.sin 0 = 0)
    (hsin_two_pi : t.sin (2 * t.pi) = 0) :
    (p.angle t n).times.length = n ∧
    (p.angle t n).values.length = n ∧
    (∀ i < n, (p.angle t n).times.getD i 0
        = (i : α) * p.period / ((n - 1 : ℕ) : α)) ∧
    (∀ i < n, (p.angle t n).values.getD i 0
        = p.angle_max * t.sin (2 * t.pi * ((p.angle t n).times.getD i 0)
            / p.period)) ∧
    (∀ v ∈ (p.angle t n).values, |v| ≤ p.angle_max) ∧
    ((p.angle t n).times.getD 0 0 = 0 ∧ (p.angle t n).values.getD 0 0 = 0) ∧
    ((p.angle t n).times.getD (n - 1) 0 = p.period ∧
      (p.angle t n).values.getD (n - 1) 0 = 0) := by
  have htimes : (p.angle t n).times = linspace 0 p.period n := rfl
  have hvalues : (p.angle t n).values = (linspace 0 p.period n).map
      (fun x => p.angle_max * t.sin (2 * t.pi * x / p.period)) := rfl
  have hlenT : (p.angle t n).times.length = n := by
    rw [htimes, length_linspace]
  have hlenV : (p.angle t n).values.length = n := by
    rw [hvalues, List.length_map, length_linspace]
  have htget : ∀ i < n, (p.angle t n).times.getD i 0
      = (i : α) * p.period / ((n - 1 : ℕ) : α) := by
    intro i hi
    rw [htimes, getD_linspace 0 p.period hi]
    ring
  have hvget : ∀ i < n, (p.angle t n).values.getD i 0
      = p.angle_max * t.sin (2 * t.pi * ((p.angle t n).times.getD i 0)
          / p.period) := by
    intro i hi
    rw [hvalues, htimes, getD_map_of_lt _ _ (by rw [length_linspace]; exact hi)]
  refine ⟨hlenT, hlenV, htget, hvget, ?_, ⟨?_, ?_⟩, ⟨?_, ?_⟩⟩
  · intro v hv
    rw [hvalues, List.mem_map] at hv
    obtain ⟨x, _, rfl⟩ := hv
    rw [abs_mul, abs_of_nonneg hmax]
    exact mul_le_of_le_one_right hmax (hsin_bound _)
  · rw [htimes, linspace_first 0 p.period (by omega)]
  · rw [hvget 0 (by omega), htimes, linspace_first 0 p.period (by omega)]
    rw [mul_zero, zero_div, hsin_zero, mul_zero]
  · rw [htimes, linspace_last 0 p.period hn]
  · rw [hvget (n - 1) (by omega), htimes, linspace_last 0 p.period hn]
    rw [mul_div_assoc, div_self (ne_of_gt hper), mul_one, hsin_two_pi, mul_zero]

/-- Witness for C6 at a concrete pattern (the abstract sine properties hold
for the constant-zero sine of `trigQ`). -/
theorem sineRocking_angle_spec_witness :
    ((0 : ℚ) ≤ 1 ∧ (0 : ℚ) < 2 ∧ 2 ≤ 2 ∧ (∀ x : ℚ, |trigQ.sin x| ≤ 1)
      ∧ trigQ.sin 0 = 0 ∧ trigQ.sin (2 * trigQ.pi) = 0) ∧
    (SineRocking.angle (α := ℚ) ⟨1, 2⟩ trigQ 2).times.length = 2 ∧
    (∀ v ∈ (SineRocking.angle (α := ℚ) ⟨1, 2⟩ trigQ 2).values, |v| ≤ 1) ∧
    (SineRocking.angle (α := ℚ) ⟨1, 2⟩ trigQ 2).values.getD 0 0 = 0 ∧
    (SineRocking.angle (α := ℚ) ⟨1, 2⟩ trigQ 2).values.getD 1 0 = 0 := by
  have h := sineRocking_angle_spec (α := ℚ) ⟨1, 2⟩ trigQ 2 (by norm_num)
    (by norm_num) (by norm_num) (fun x => by simp [trigQ]) rfl rfl
  exact ⟨⟨by norm_num, by norm_num, by norm_num, fun x => by simp [trigQ],
    rfl, rfl⟩, h.1, h.2.2.2.2.1, h.2.2.2.2.2.1.2, h.2.2.2.2.2.2.2⟩

lemma constantRocking_angle_eval (p : ConstantRocking α) (n : ℕ)
    (hfwd : 0 < p.n_fwd n) (hback : 0 < (n : ℤ) - p.n_fwd n) :
    ∃ s, p.angle n = some s ∧ s.times.length = n ∧ s.values.length = n ∧
      s.values.getD 0 0 = 0 ∧
      s.values.getD (p.n_fwd n).toNat 0 = p.angle_max ∧
      s.values.getD (n - 1) 0 =
        (if ((n : ℤ) - p.n_fwd n).toNat = 1 then p.angle_max else 0) := by
  simp only [ConstantRocking.angle]
  rw [if_pos ⟨hfwd, hback⟩]
  refine ⟨_, rfl, ?_, ?_, ?_, ?_, ?_⟩
  · simp [List.length_ofFn]
  · simp [List.length_ofFn]
  · dsimp only
    rw [getD_ofFn _ 0 (by omega)]
    rw [if_pos (show (0 : ℕ) < n - ((n : ℤ) - p.n_fwd n).toNat by omega)]
    exact linspace_first 0 p.angle_max (by omega)
  · dsimp only
    rw [getD_ofFn _ (p.n_fwd n).toNat (by omega)]
    rw [if_neg (show ¬((p.n_fwd n).toNat < n - ((n : ℤ) - p.n_fwd n).toNat)
      by omega)]
    rw [show (p.n_fwd n).toNat - (n - ((n : ℤ) - p.n_fwd n).toNat) = 0
      by omega]
    exact linspace_first p.angle_max 0 (by omega)
  · dsimp only
    rw [getD_ofFn _ (n - 1) (by omega)]
    rw [if_neg (show ¬(n - 1 < n - ((n : ℤ) - p.n_fwd n).toNat) by omega)]
    rw [show (n - 1) - (n - ((n : ℤ) - p.n_fwd n).toNat)
        = ((n : ℤ) - p.n_fwd n).toNat - 1 by omega]
    by_cases h1 : ((n : ℤ) - p.n_fwd n).toNat = 1
    · rw [if_pos h1, h1]
      exact linspace_first p.angle_max 0 (by omega)
    · rw [if_neg h1]
      exact linspace_last p.angle_max 0 (by omega)

/-- C2 (amended): for positive parameters and both phase sample counts
positive, `ConstantRocking.angle(ntimes)` has total length exactly `ntimes`,
value 0 at index 0, value `angle_max` at the junction index
`n_fwd = floor(backward / (forward + backward) * ntimes)`, and final value 0
whenever the backward phase has at least two samples; when the backward
phase has exactly one sample the final value is `angle_max` instead. -/
theorem constantRocking_angle_spec (p : ConstantRocking α) (n : ℕ)
    (hf : 0 < p.forward_angular_vel) (hb : 0 < p.backward_angular_vel)
    (ha : 0 < p.angle_max)
    (hfwd : 0 < p.n_fwd n) (hback : 0 < (n : ℤ) - p.n_fwd n) :
    p.n_fwd n = ⌊p.backward_angular_vel
        / (p.forward_angular_vel + p.backward_angular_vel) * (n : α)⌋ ∧
    ∃ s, p.angle n = some s ∧ s.times.length = n ∧ s.values.length = n ∧
      s.values.getD 0 0 = 0 ∧
      s.values.getD (p.n_fwd n).toNat 0 = p.angle_max ∧
      (2 ≤ ((n : ℤ) - p.n_fwd n).toNat → s.values.getD (n - 1) 0 = 0) ∧
      (((n : ℤ) - p.n_fwd n).toNat = 1 →
        s.values.getD (n - 1) 0 = p.angle_max) := by
  constructor
  · have hx : (0 : α) ≤ p.backward_angular_vel
        / (p.backward_angular_vel + p.forward_angular_vel) * (n : α) :=
      mul_nonneg (div_nonneg hb.le (by linarith)) (Nat.cast_nonneg n)
    rw [ConstantRocking.n_fwd, int_trunc, if_pos hx,
      add_comm p.forward_angular_vel p.backward_angular_vel]
  · obtain ⟨s, h1, h2, h3, h4, h5, h6⟩ := constantRocking_angle_eval p n hfwd hback
    refine ⟨s, h1, h2, h3, h4, h5, ?_, ?_⟩
    · intro h2le
      rw [h6, if_neg (by omega)]
    · intro heq
      rw [h6, if_pos heq]

/-- Witness for C2 (amended) at `ConstantRocking(1, 1, 1)` with 4 samples:
`n_fwd = 2`, junction value 1 at index 2, final value 0. -/
theorem constantRocking_angle_spec_witness :
    ((0 : ℚ) < 1) ∧
    (0 < ConstantRocking.n_fwd (α := ℚ) ⟨1, 1, 1⟩ 4) ∧
    (0 < (4 : ℤ) - ConstantRocking.n_fwd (α := ℚ) ⟨1, 1, 1⟩ 4) ∧
    ∃ s, ConstantRocking.angle (α := ℚ) ⟨1, 1, 1⟩ 4 = some s ∧
      s.times.length = 4 ∧ s.values.length = 4 ∧
      s.values.getD 0 0 = 0 ∧ s.values.getD 2 0 = 1 ∧
      s.values.getD 3 0 = 0 := by
  have hval : ConstantRocking.n_fwd (α := ℚ) ⟨1, 1, 1⟩ 4 = 2 := by
    norm_num [ConstantRocking.n_fwd, int_trunc]
  have h := constantRocking_angle_spec (α := ℚ) ⟨1, 1, 1⟩ 4 (by norm_num)
    (by norm_num) (by norm_num) (by rw [hval]; norm_num) (by rw [hval]; norm_num)
  obtain ⟨-, s, h1, h2, h3, h4, h5, h6, -⟩ := h
  refine ⟨by norm_num, by rw [hval]; norm_num, by rw [hval]; norm_num,
    s, h1, h2, h3, h4, ?_, ?_⟩
  · have htn : (ConstantRocking.n_fwd (α := ℚ) ⟨1, 1, 1⟩ 4).toNat = 2 := by
      rw [hval]
      rfl
    rw [← htn]
    exact h5
  · have h32 : s.values.getD (4 - 1) 0 = 0 := by
      apply h6
      rw [hval]
      norm_num
    exact h32

/-- Counterexample for C2 as stated: at `ConstantRocking(1, 1, 1)` with
`ntimes = 2` (positive parameters, `n_fwd = 1 > 0` and `n_back = 1 > 0`),
the final value of the series is `angle_max = 1`, not approximately 0. -/
theorem constantRocking_final_value_counterexample :
    ((0 : ℚ) < 1) ∧
    (0 < ConstantRocking.n_fwd (α := ℚ) ⟨1, 1, 1⟩ 2) ∧
    (0 < (2 : ℤ) - ConstantRocking.n_fwd (α := ℚ) ⟨1, 1, 1⟩ 2) ∧
    ∃ s, ConstantRocking.angle (α := ℚ) ⟨1, 1, 1⟩ 2 = some s ∧
      s.values.getD (2 - 1) 0 = 1 ∧ ¬(s.values.getD (2 - 1) 0 = 0) := by
  have hval : ConstantRocking.n_fwd (α := ℚ) ⟨1, 1, 1⟩ 2 = 1 := by
    norm_num [ConstantRocking.n_fwd, int_trunc]
  obtain ⟨s, h1, -, -, -, -, h6⟩ := constantRocking_angle_eval (α := ℚ)
    ⟨1, 1, 1⟩ 2 (by rw [hval]; norm_num) (by rw [hval]; norm_num)
  have hfin : s.values.getD (2 - 1) 0 = 1 := by
    rw [h6, hval]
    norm_num
  exact ⟨by norm_num, by rw [hval]; norm_num, by rw [hval]; norm_num,
    s, h1, hfin, by rw [hfin]; norm_num⟩

/-- C3: `ConstantRocking.angle(ntimes)` fails (assertion error, modelled as
`none`) exactly when one of the two phase sample counts
`n_fwd = floor(backward / (forward + backward) * ntimes)` and
`n_back = ntimes - n_fwd` is not strictly positive; the test is performed
on the counts alone, before any sample array is built. -/
theorem constantRocking_angle_none_iff (p : ConstantRocking α) (n : ℕ) :
    p.angle n = none ↔
      ¬(0 < ⌊p.backward_angular_vel
            / (p.forward_angular_vel + p.backward_angular_vel) * (n : α)⌋ ∧
        0 < (n : ℤ) - ⌊p.backward_angular_vel
            / (p.forward_angular_vel + p.backward_angular_vel) * (n : α)⌋) := by
  have hnone : p.angle n = none ↔
      ¬(0 < p.n_fwd n ∧ 0 < (n : ℤ) - p.n_fwd n) := by
    simp only [ConstantRocking.angle]
    split
    · next h => exact iff_of_false (by simp) (not_not_intro h)
    · next h => exact iff_of_true rfl h
  rw [hnone, add_comm p.forward_angular_vel p.backward_angular_vel]
  have hkey : (0 < p.n_fwd n ∧ 0 < (n : ℤ) - p.n_fwd n) ↔
      (0 < ⌊p.backward_angular_vel
          / (p.backward_angular_vel + p.forward_angular_vel) * (n : α)⌋ ∧
        0 < (n : ℤ) - ⌊p.backward_angular_vel
          / (p.backward_angular_vel + p.forward_angular_vel) * (n : α)⌋) := by
    rw [ConstantRocking.n_fwd, int_trunc]
    rcases le_or_lt 0 (p.backward_angular_vel
        / (p.backward_angular_vel + p.forward_angular_vel) * (n : α)) with hp | hneg
    · rw [if_pos hp]
    · rw [if_neg (not_le.mpr hneg)]
      constructor
      · rintro ⟨h1, -⟩
        have := Int.lt_ceil.mp h1
        push_cast at this
        linarith
      · rintro ⟨h1, -⟩
        have := Int.le_floor.mp h1
        push_cast at this
        linarith
  rw [hkey]
